import Mathlib

/-!
Shallow embedding of the LRU cache from `src/include/lru.h` (class `lru`)
and of the smaller variant in `src/lru.h`.

The C++ class keeps a `std::list<std::pair<const Key, Value>>` (`_list`,
head = most recently used) together with a
`std::unordered_map<key_ref, list_iterator>` (`_map`) and a `size_t`
capacity (`_capacity`).  A list iterator is a stable handle to one node:
it survives `splice` (promotion) of any node and is invalidated only when
its own node is erased.  We model a node handle as a natural-number id
that is allocated freshly at each insertion; the list becomes a `List`
of `Node` records (id, key, value) in head-to-tail order, and the map an
association list from keys to ids.  The pluggable `Hash`/`Eq` pair is
modelled by a `DecidableEq` instance on the key type.
-/

set_option linter.unusedSectionVars false

universe u v

/-- Node of the recency list: a stable handle (`id`) plus the owned
key/value pair (`key_value_pair` in the source). -/
structure Node (K : Type u) (V : Type v) where
  id : Nat
  key : K
  val : V
  deriving Repr, DecidableEq

/-- State of the cache of `src/include/lru.h`: `map` is `_map`
(key to node handle), `list` is `_list` (head = most recent),
`capacity` is `_capacity`, and `nextId` is the allocator counter for
fresh node handles. -/
structure lru (K : Type u) (V : Type v) where
  map : List (K × Nat)
  list : List (Node K V)
  capacity : Nat
  nextId : Nat
  deriving Repr

variable {K : Type u} {V : Type v} [DecidableEq K]

namespace lru

/-- The constructor `lru(size_t capacity)`: empty map and list. -/
def ofCapacity (c : Nat) : lru K V :=
  { map := [], list := [], capacity := c, nextId := 0 }

/-- Lookup in `_map` (`_map.find(key)`). -/
def mapFind (m : List (K × Nat)) (k : K) : Option Nat :=
  match m with
  | [] => none
  | p :: ps => if p.1 = k then some p.2 else mapFind ps k

/-- Store through `_map.operator[]`: overwrite the mapped handle if the
key is present, otherwise add the binding. -/
def mapSet (m : List (K × Nat)) (k : K) (i : Nat) : List (K × Nat) :=
  match m with
  | [] => [(k, i)]
  | p :: ps => if p.1 = k then (k, i) :: ps else p :: mapSet ps k i

/-- Erase a key from `_map` (`_map.erase(key)`): removes the first
binding of the key. -/
def mapErase (m : List (K × Nat)) (k : K) : List (K × Nat) :=
  match m with
  | [] => []
  | p :: ps => if p.1 = k then ps else p :: mapErase ps k

/-- Dereference a node handle: the node of `list` carrying that id. -/
def storeFind (l : List (Node K V)) (i : Nat) : Option (Node K V) :=
  l.find? (fun n => n.id = i)

/-- Overwrite the value of the node with handle `i`
(`iter->second = value` through a stored iterator). -/
def storeAssign (l : List (Node K V)) (i : Nat) (v : V) : List (Node K V) :=
  match l with
  | [] => []
  | n :: ns => if n.id = i then { n with val := v } :: ns else n :: storeAssign ns i v

/-- Method `size()`: `_list.size()`. -/
def size (c : lru K V) : Nat := c.list.length

/-- Method `empty()`: `_list.empty()`. -/
def isUnfilled (c : lru K V) : Bool := c.list.isEmpty

/-- Method `max_size()`: returns `_capacity`. -/
def max_size (c : lru K V) : Nat := c.capacity

/-- Protected `_promote(iterator)`: splice the node to the front of the
list unless it is already the front.  The handle not resolving cannot
happen in the source (the iterator is always valid there); we return the
state unchanged in that case. -/
def promote (c : lru K V) (i : Nat) : lru K V :=
  match storeFind c.list i with
  | none => c
  | some n =>
      if c.list.head?.map Node.id = some i then c
      else { c with list := n :: c.list.eraseP (fun m => m.id = i) }

/-- Protected `_evict()`: erase the back node's key from `_map`, then
pop the back of `_list`.  The source never calls this on an empty list. -/
def evict (c : lru K V) : lru K V :=
  match c.list.getLast? with
  | none => c
  | some n => { c with map := mapErase c.map n.key, list := c.list.dropLast }


/-- Iteration of the `_prune` loop body, with an explicit bound on the
number of iterations: each `_evict` shortens the list by one, so the
loop runs at most `_list.size()` times. -/
def pruneFuel : Nat → lru K V → Nat → lru K V
  | 0, c, _ => c
  | fuel + 1, c, cap =>
      if c.list.length ≤ cap then c else pruneFuel fuel (evict c) cap

/-- Protected `_prune(size_t)`: evict from the tail while the list is
longer than the given capacity.  `prune_eq` below shows this equals the
loop of the source. -/
def prune (c : lru K V) (cap : Nat) : lru K V :=
  pruneFuel c.list.length c cap


/-- Protected `_insert(key, value)`: emplace a fresh node at the head of
`_list`, bind its key to it in `_map`, then `_prune()` to `_capacity`. -/
def insertNew (c : lru K V) (k : K) (v : V) : lru K V :=
  prune
    { c with
      list := ⟨c.nextId, k, v⟩ :: c.list
      map := mapSet c.map k c.nextId
      nextId := c.nextId + 1 }
    c.capacity

/-- Method `insert(key, value)`: no-op returning `false` when the key is
present (`_contains`), otherwise `_insert` and return `true`. -/
def insert (c : lru K V) (k : K) (v : V) : Bool × lru K V :=
  if (mapFind c.map k).isSome then (false, c)
  else (true, insertNew c k v)

/-- Method `insert_or_assign(key, value)`: when the key is present,
overwrite the mapped node's value in place, promote it and return
`false`; otherwise `_insert` and return `true`. -/
def insert_or_assign (c : lru K V) (k : K) (v : V) : Bool × lru K V :=
  match mapFind c.map k with
  | some i => (false, promote { c with list := storeAssign c.list i v } i)
  | none => (true, insertNew c k v)

/-- Method `find(key)`: on a hit, promote the node and return its
iterator (modelled as the node itself); on a miss return `end()`
(modelled as `none`) leaving the state untouched. -/
def find (c : lru K V) (k : K) : Option (Node K V) × lru K V :=
  match mapFind c.map k with
  | none => (none, c)
  | some i =>
      match storeFind c.list i with
      | none => (none, c)
      | some n => (some n, promote c i)

/-- Method `contains(key)`: `find(key) != end()`, hence it promotes on a
hit. -/
def contains (c : lru K V) (k : K) : Bool × lru K V :=
  ((find c k).1.isSome, (find c k).2)

/-- Method `get(key)`: lookup in `_map`, promote on a hit and return a
reference to the value. -/
def get (c : lru K V) (k : K) : Option V × lru K V :=
  match mapFind c.map k with
  | none => (none, c)
  | some i =>
      match storeFind c.list i with
      | none => (none, c)
      | some n => (some n.val, promote c i)

/-- Method `get_copy(key)`: same body as `get`, returning a copy of the
value instead of a reference. -/
def get_copy (c : lru K V) (k : K) : Option V × lru K V :=
  match mapFind c.map k with
  | none => (none, c)
  | some i =>
      match storeFind c.list i with
      | none => (none, c)
      | some n => (some n.val, promote c i)

/-- Method `try_update(key, func)`: `find` (which promotes), then apply
`func` to the found node's value in place. -/
def try_update (c : lru K V) (k : K) (f : V → V) : Bool × lru K V :=
  match find c k with
  | (none, c') => (false, c')
  | (some n, c') => (true, { c' with list := storeAssign c'.list n.id (f n.val) })

/-- Method `for_each(func)`: apply `func` to every key/value pair from
head to tail; `func` may mutate the value in place (the key is const). -/
def for_each (c : lru K V) (f : K → V → V) : lru K V :=
  { c with list := c.list.map (fun n => { n with val := f n.key n.val }) }

/-- Method `resize(capacity)`: `_prune(capacity)` then store the new
capacity. -/
def resize (c : lru K V) (cap : Nat) : lru K V :=
  { prune c cap with capacity := cap }

/-- Method `clear()`: clear `_map` and `_list`. -/
def clear (c : lru K V) : lru K V :=
  { c with map := [], list := [] }

end lru

/-- One public operation of the cache, for stating invariants over
arbitrary operation sequences. -/
inductive Op (K : Type u) (V : Type v) where
  | insert (k : K) (v : V)
  | insertOrAssign (k : K) (v : V)
  | find (k : K)
  | get (k : K)
  | getCopy (k : K)
  | contains (k : K)
  | tryUpdate (k : K) (f : V → V)
  | forEach (f : K → V → V)
  | resize (n : Nat)
  | clear

namespace lru

/-- Apply one public operation to the cache state, discarding the
returned value. -/
def applyOp (c : lru K V) : Op K V → lru K V
  | Op.insert k v => (insert c k v).2
  | Op.insertOrAssign k v => (insert_or_assign c k v).2
  | Op.find k => (find c k).2
  | Op.get k => (get c k).2
  | Op.getCopy k => (get_copy c k).2
  | Op.contains k => (contains c k).2
  | Op.tryUpdate k f => (try_update c k f).2
  | Op.forEach f => for_each c f
  | Op.resize n => resize c n
  | Op.clear => clear c

/-- Run a sequence of public operations from a state. -/
def run (c : lru K V) (ops : List (Op K V)) : lru K V :=
  ops.foldl applyOp c

/-! The Index/Recency-Sequence bijection invariant. -/

/-- Bijection between `_map` and `_list`: every binding in the Index
resolves to an entry of the Recency Sequence carrying the same key, the
mapped handle designates exactly that entry (handles are unique in the
sequence, so the binding resolves to exactly one entry), and every entry
of the sequence is registered in the Index under its key. -/
def Bijection (c : lru K V) : Prop :=
  (∀ p ∈ c.map, ∃ n ∈ c.list, n.id = p.2 ∧ n.key = p.1) ∧
  (∀ n ∈ c.list, (n.key, n.id) ∈ c.map) ∧
  (c.map.map Prod.fst).Nodup ∧
  (c.list.map Node.key).Nodup ∧
  (c.list.map Node.id).Nodup

/-- Full internal invariant: the bijection together with freshness of
the handle allocator. -/
def Inv (c : lru K V) : Prop :=
  Bijection c ∧ ∀ n ∈ c.list, n.id < c.nextId

instance (c : lru K V) : Decidable (Bijection c) := by
  unfold Bijection
  infer_instance

instance (c : lru K V) : Decidable (Inv c) := by
  unfold Inv
  infer_instance

end lru

/-! The smaller variant of the cache, `src/lru.h`.  Its class is also
named `lru`; we embed it as `lruSmall`.  Its `_list` holds the same
`std::pair<const Key, Value>` nodes and its `_map` the same
key-to-iterator bindings as the other implementation, so the `Node`
type and the container primitives (`lru.mapFind`, `lru.mapSet`,
`lru.mapErase`, `lru.storeFind`, `lru.storeAssign`), which model the
shared `std::list`/`std::unordered_map` operations, are reused; every
method of the class is translated separately from `src/lru.h`. -/

/-- State of the cache of `src/lru.h`: `_map`, `_list` (head = most
recent) and `_capacity`, with the handle-allocator counter. -/
structure lruSmall (K : Type u) (V : Type v) where
  map : List (K × Nat)
  list : List (Node K V)
  capacity : Nat
  nextId : Nat
  deriving Repr

namespace lruSmall

/-- The constructor `lru(std::size_t capacity)` of `src/lru.h`. -/
def ofCapacity (c : Nat) : lruSmall K V :=
  { map := [], list := [], capacity := c, nextId := 0 }

/-- Method `size()` of `src/lru.h`. -/
def size (c : lruSmall K V) : Nat := c.list.length

/-- Method `empty()` of `src/lru.h`. -/
def isUnfilled (c : lruSmall K V) : Bool := c.list.isEmpty

/-- Method `max_size()` of `src/lru.h`. -/
def max_size (c : lruSmall K V) : Nat := c.capacity

/-- Protected `_promote(iterator)` of `src/lru.h`. -/
def promote (c : lruSmall K V) (i : Nat) : lruSmall K V :=
  match lru.storeFind c.list i with
  | none => c
  | some n =>
      if c.list.head?.map Node.id = some i then c
      else { c with list := n :: c.list.eraseP (fun m => m.id = i) }

/-- Protected `_evict()` of `src/lru.h`. -/
def evict (c : lruSmall K V) : lruSmall K V :=
  match c.list.getLast? with
  | none => c
  | some n =>
      { c with map := lru.mapErase c.map n.key, list := c.list.dropLast }

/-- Iterations of the `_prune` loop of `src/lru.h`, fuelled by the list
length as in the other embedding. -/
def pruneFuel : Nat → lruSmall K V → Nat → lruSmall K V
  | 0, c, _ => c
  | fuel + 1, c, cap =>
      if c.list.length ≤ cap then c else pruneFuel fuel (evict c) cap

/-- Protected `_prune(std::size_t)` of `src/lru.h`. -/
def prune (c : lruSmall K V) (cap : Nat) : lruSmall K V :=
  pruneFuel c.list.length c cap

/-- Protected `_insert(key, value)` of `src/lru.h`. -/
def insertNew (c : lruSmall K V) (k : K) (v : V) : lruSmall K V :=
  prune
    { c with
      list := ⟨c.nextId, k, v⟩ :: c.list
      map := lru.mapSet c.map k c.nextId
      nextId := c.nextId + 1 }
    c.capacity

/-- Method `insert(key, value)` of `src/lru.h`. -/
def insert (c : lruSmall K V) (k : K) (v : V) : Bool × lruSmall K V :=
  if (lru.mapFind c.map k).isSome then (false, c)
  else (true, insertNew c k v)

/-- Method `insert_or_assign(key, value)` of `src/lru.h`. -/
def insert_or_assign (c : lruSmall K V) (k : K) (v : V) :
    Bool × lruSmall K V :=
  match lru.mapFind c.map k with
  | some i => (false, promote { c with list := lru.storeAssign c.list i v } i)
  | none => (true, insertNew c k v)

/-- Method `find(key)` of `src/lru.h`. -/
def find (c : lruSmall K V) (k : K) : Option (Node K V) × lruSmall K V :=
  match lru.mapFind c.map k with
  | none => (none, c)
  | some i =>
      match lru.storeFind c.list i with
      | none => (none, c)
      | some n => (some n, promote c i)

/-- Method `contains(key)` of `src/lru.h`: `find(key) != end()`. -/
def contains (c : lruSmall K V) (k : K) : Bool × lruSmall K V :=
  ((find c k).1.isSome, (find c k).2)

/-- Method `try_update(key, func)` of `src/lru.h`. -/
def try_update (c : lruSmall K V) (k : K) (f : V → V) :
    Bool × lruSmall K V :=
  match find c k with
  | (none, c') => (false, c')
  | (some n, c') =>
      (true, { c' with list := lru.storeAssign c'.list n.id (f n.val) })

/-- Method `for_each(func)` of `src/lru.h`. -/
def for_each (c : lruSmall K V) (f : K → V → V) : lruSmall K V :=
  { c with list := c.list.map (fun n => { n with val := f n.key n.val }) }

/-- Method `resize(capacity)` of `src/lru.h`. -/
def resize (c : lruSmall K V) (cap : Nat) : lruSmall K V :=
  { prune c cap with capacity := cap }

/-- Method `clear()` of `src/lru.h`. -/
def clear (c : lruSmall K V) : lruSmall K V :=
  { c with map := [], list := [] }

end lruSmall

/-- Reinterpret a state of the larger implementation as a state of the
smaller one (the two classes have the same data members). -/
def toSmall (c : lru K V) : lruSmall K V :=
  { map := c.map, list := c.list, capacity := c.capacity, nextId := c.nextId }

/-- One operation of the method set shared by the two implementations
(everything except `get`/`get_copy`). -/
inductive SharedOp (K : Type u) (V : Type v) where
  | insert (k : K) (v : V)
  | insertOrAssign (k : K) (v : V)
  | find (k : K)
  | contains (k : K)
  | tryUpdate (k : K) (f : V → V)
  | forEach (f : K → V → V)
  | resize (n : Nat)
  | clear
  | size
  | emptyQ
  | maxSize

/-- Observable result of one shared operation: a boolean, the
dereferenced key/value pair behind a returned iterator, a count, or
nothing. -/
inductive Out (K : Type u) (V : Type v) where
  | flag (b : Bool)
  | entry (e : Option (K × V))
  | count (n : Nat)
  | unit

namespace lru

/-- Run one shared operation on the larger implementation, recording
its observable result. -/
def stepShared (c : lru K V) : SharedOp K V → Out K V × lru K V
  | SharedOp.insert k v => (Out.flag (insert c k v).1, (insert c k v).2)
  | SharedOp.insertOrAssign k v =>
      (Out.flag (insert_or_assign c k v).1, (insert_or_assign c k v).2)
  | SharedOp.find k =>
      (Out.entry ((find c k).1.map (fun n => (n.key, n.val))), (find c k).2)
  | SharedOp.contains k => (Out.flag (contains c k).1, (contains c k).2)
  | SharedOp.tryUpdate k f =>
      (Out.flag (try_update c k f).1, (try_update c k f).2)
  | SharedOp.forEach f => (Out.unit, for_each c f)
  | SharedOp.resize n => (Out.unit, resize c n)
  | SharedOp.clear => (Out.unit, clear c)
  | SharedOp.size => (Out.count (size c), c)
  | SharedOp.emptyQ => (Out.flag (isUnfilled c), c)
  | SharedOp.maxSize => (Out.count (max_size c), c)

/-- Run a sequence of shared operations on the larger implementation,
collecting the observable results. -/
def runShared (c : lru K V) : List (SharedOp K V) → lru K V × List (Out K V)
  | [] => (c, [])
  | op :: ops =>
      let r := stepShared c op
      let rest := runShared r.2 ops
      (rest.1, r.1 :: rest.2)

end lru

namespace lruSmall

/-- Run one shared operation on the smaller implementation, recording
its observable result. -/
def stepShared (c : lruSmall K V) : SharedOp K V → Out K V × lruSmall K V
  | SharedOp.insert k v => (Out.flag (insert c k v).1, (insert c k v).2)
  | SharedOp.insertOrAssign k v =>
      (Out.flag (insert_or_assign c k v).1, (insert_or_assign c k v).2)
  | SharedOp.find k =>
      (Out.entry ((find c k).1.map (fun n => (n.key, n.val))), (find c k).2)
  | SharedOp.contains k => (Out.flag (contains c k).1, (contains c k).2)
  | SharedOp.tryUpdate k f =>
      (Out.flag (try_update c k f).1, (try_update c k f).2)
  | SharedOp.forEach f => (Out.unit, for_each c f)
  | SharedOp.resize n => (Out.unit, resize c n)
  | SharedOp.clear => (Out.unit, clear c)
  | SharedOp.size => (Out.count (size c), c)
  | SharedOp.emptyQ => (Out.flag (isUnfilled c), c)
  | SharedOp.maxSize => (Out.count (max_size c), c)

/-- Run a sequence of shared operations on the smaller implementation,
collecting the observable results. -/
def runShared (c : lruSmall K V) :
    List (SharedOp K V) → lruSmall K V × List (Out K V)
  | [] => (c, [])
  | op :: ops =>
      let r := stepShared c op
      let rest := runShared r.2 ops
      (rest.1, r.1 :: rest.2)

end lruSmall

/-- Concrete two-entry cache (keys 2 then 1 in recency order) used to
instantiate universally quantified contracts. -/
def cacheA : lru Nat Nat :=
  { map := [(1, 0), (2, 1)], list := [⟨1, 2, 20⟩, ⟨0, 1, 10⟩],
    capacity := 3, nextId := 2 }

/-- Concrete one-entry cache of capacity 2 used to instantiate
universally quantified contracts. -/
def cacheB : lru Nat Nat :=
  { map := [(1, 0)], list := [⟨0, 1, 10⟩], capacity := 2, nextId := 1 }

/-- Concrete cache of capacity 2 holding key 1 with value 1, as after
`insert(1, 1)` from empty. -/
def cacheC : lru Nat Nat :=
  { map := [(1, 0)], list := [⟨0, 1, 1⟩], capacity := 2, nextId := 1 }

namespace lru

theorem evict_length_lt (c : lru K V) (h : c.list ≠ []) :
    (evict c).list.length < c.list.length := by
  unfold evict
  cases hl : c.list.getLast? with
  | none => exact absurd (List.getLast?_eq_none_iff.mp hl) h
  | some n =>
      simp only [List.length_dropLast]
      exact Nat.pred_lt (by simpa [List.length_eq_zero] using h)

theorem pruneFuel_congr {f1 f2 : Nat} (c : lru K V) (cap : Nat)
    (h1 : c.list.length ≤ f1) (h2 : c.list.length ≤ f2) :
    pruneFuel f1 c cap = pruneFuel f2 c cap := by
  induction f1 generalizing f2 c with
  | zero =>
      have hz : c.list.length = 0 := Nat.le_zero.mp h1
      cases f2 with
      | zero => rfl
      | succ g =>
          rw [pruneFuel, pruneFuel, if_pos (by omega)]
  | succ s ih =>
      cases f2 with
      | zero =>
          have hz : c.list.length = 0 := Nat.le_zero.mp h2
          rw [pruneFuel, pruneFuel, if_pos (by omega)]
      | succ g =>
          rw [pruneFuel, pruneFuel]
          by_cases hc : c.list.length ≤ cap
          · rw [if_pos hc, if_pos hc]
          · rw [if_neg hc, if_neg hc]
            have hne : c.list ≠ [] := by
              intro hnil
              rw [hnil] at hc
              exact hc (Nat.zero_le cap)
            have hlt := evict_length_lt c hne
            exact ih (evict c) (by omega) (by omega)

/-- The defining loop of `_prune`: while the list is longer than the
capacity, evict. -/
theorem prune_eq (c : lru K V) (cap : Nat) :
    prune c cap = if c.list.length ≤ cap then c else prune (evict c) cap := by
  unfold prune
  by_cases hc : c.list.length ≤ cap
  · rw [if_pos hc]
    cases hl : c.list.length with
    | zero => rfl
    | succ m => rw [pruneFuel, if_pos (hl ▸ hc)]
  · rw [if_neg hc]
    have hne : c.list ≠ [] := by
      intro hnil
      rw [hnil] at hc
      exact hc (Nat.zero_le cap)
    cases hl : c.list.length with
    | zero => exact absurd (List.length_eq_zero.mp hl) hne
    | succ m =>
        rw [pruneFuel, if_neg (hl ▸ hc)]
        refine pruneFuel_congr (evict c) cap ?_ ?_ <;>
          · have := evict_length_lt c hne
            omega

/-! Facts about the association-list model of `_map`. -/

theorem mapFind_eq_none {m : List (K × Nat)} {k : K} :
    mapFind m k = none ↔ ∀ p ∈ m, p.1 ≠ k := by
  induction m with
  | nil => simp [mapFind]
  | cons p ps ih =>
      by_cases h : p.1 = k <;> simp [mapFind, h, ih]

theorem mem_of_mapFind_eq_some {m : List (K × Nat)} {k : K} {i : Nat}
    (h : mapFind m k = some i) : (k, i) ∈ m := by
  induction m with
  | nil => simp [mapFind] at h
  | cons p ps ih =>
      by_cases hp : p.1 = k
      · simp only [mapFind, hp, if_pos] at h
        cases h
        exact List.mem_cons.mpr (Or.inl (by rw [← hp]))
      · simp only [mapFind, hp, if_neg, not_false_iff] at h
        exact List.mem_cons_of_mem _ (ih h)

theorem mapFind_eq_some_of_mem {m : List (K × Nat)} {k : K} {i : Nat}
    (hm : (k, i) ∈ m) (hnd : (m.map Prod.fst).Nodup) : mapFind m k = some i := by
  induction m with
  | nil => simp at hm
  | cons p ps ih =>
      simp only [List.map_cons, List.nodup_cons] at hnd
      rcases List.mem_cons.mp hm with h | h
      · rw [← h]
        simp [mapFind]
      · have hne : p.1 ≠ k := by
          intro he
          exact hnd.1 (he ▸ (List.mem_map_of_mem Prod.fst h))
        simp [mapFind, hne, ih h hnd.2]

theorem mapFind_isSome_of_mem {m : List (K × Nat)} {k : K} {i : Nat}
    (hm : (k, i) ∈ m) : mapFind m k ≠ none := by
  intro h
  rw [mapFind_eq_none] at h
  exact h (k, i) hm rfl

theorem mapSet_of_absent {m : List (K × Nat)} {k : K} (i : Nat)
    (h : mapFind m k = none) : mapSet m k i = m ++ [(k, i)] := by
  induction m with
  | nil => simp [mapSet]
  | cons p ps ih =>
      rw [mapFind_eq_none] at h
      have hp : p.1 ≠ k := h p (List.mem_cons_self p ps)
      have hps : mapFind ps k = none := by
        rw [mapFind_eq_none]
        exact fun q hq => h q (List.mem_cons_of_mem p hq)
      simp [mapSet, hp, ih hps]

theorem mapErase_keys_sublist (m : List (K × Nat)) (k : K) :
    ((mapErase m k).map Prod.fst).Sublist (m.map Prod.fst) := by
  induction m with
  | nil => simp [mapErase]
  | cons p ps ih =>
      by_cases h : p.1 = k
      · simp only [mapErase, h, if_pos, List.map_cons]
        exact (List.sublist_cons_self _ _)
      · simp only [mapErase, h, if_neg, not_false_iff, List.map_cons]
        exact ih.cons₂ _

theorem mapErase_sublist (m : List (K × Nat)) (k : K) :
    (mapErase m k).Sublist m := by
  induction m with
  | nil => simp [mapErase]
  | cons p ps ih =>
      by_cases h : p.1 = k
      · simp only [mapErase, h, if_pos]
        exact List.sublist_cons_self _ _
      · simp only [mapErase, h, if_neg, not_false_iff]
        exact ih.cons₂ _

theorem mem_mapErase_of_ne {m : List (K × Nat)} {k : K} {p : K × Nat}
    (hp : p ∈ m) (hne : p.1 ≠ k) : p ∈ mapErase m k := by
  induction m with
  | nil => simp at hp
  | cons q qs ih =>
      by_cases h : q.1 = k
      · simp only [mapErase, h, if_pos]
        rcases List.mem_cons.mp hp with rfl | hmem
        · exact absurd h hne
        · exact hmem
      · simp only [mapErase, h, if_neg, not_false_iff]
        rcases List.mem_cons.mp hp with rfl | hmem
        · exact List.mem_cons_self _ _
        · exact List.mem_cons_of_mem _ (ih hmem)

theorem not_mem_mapErase {m : List (K × Nat)} {k : K}
    (hnd : (m.map Prod.fst).Nodup) (i : Nat) : (k, i) ∉ mapErase m k := by
  induction m with
  | nil => simp [mapErase]
  | cons q qs ih =>
      simp only [List.map_cons, List.nodup_cons] at hnd
      by_cases h : q.1 = k
      · simp only [mapErase, h, if_pos]
        intro hmem
        exact hnd.1 (h ▸ (List.mem_map_of_mem Prod.fst hmem))
      · simp only [mapErase, h, if_neg, not_false_iff]
        intro hmem
        rcases List.mem_cons.mp hmem with he | hmem
        · exact h (congrArg Prod.fst he.symm)
        · exact ih hnd.2 hmem

/-! Facts about node lookup and in-place value assignment. -/

theorem storeFind_eq_some {l : List (Node K V)} {i : Nat} {n : Node K V}
    (h : storeFind l i = some n) : n ∈ l ∧ n.id = i := by
  refine ⟨List.mem_of_find?_eq_some h, ?_⟩
  have := List.find?_some h
  simpa using this

theorem storeFind_eq_some_of_mem {l : List (Node K V)} {i : Nat} {n : Node K V}
    (hm : n ∈ l) (hi : n.id = i) (hnd : (l.map Node.id).Nodup) :
    storeFind l i = some n := by
  induction l with
  | nil => simp at hm
  | cons q qs ih =>
      simp only [List.map_cons, List.nodup_cons] at hnd
      rcases List.mem_cons.mp hm with rfl | hmem
      · simp [storeFind, List.find?, hi]
      · have hq : q.id ≠ i := by
          intro he
          exact hnd.1 (he ▸ hi ▸ List.mem_map_of_mem Node.id hmem)
        have := ih hmem hnd.2
        simpa [storeFind, List.find?_cons, hq] using this

theorem storeAssign_idKey (l : List (Node K V)) (i : Nat) (v : V) :
    (storeAssign l i v).map (fun n => (n.id, n.key)) =
      l.map (fun n => (n.id, n.key)) := by
  induction l with
  | nil => simp [storeAssign]
  | cons q qs ih =>
      by_cases h : q.id = i <;> simp [storeAssign, h, ih]

theorem storeAssign_ids (l : List (Node K V)) (i : Nat) (v : V) :
    (storeAssign l i v).map Node.id = l.map Node.id := by
  have h := congrArg (List.map Prod.fst) (storeAssign_idKey l i v)
  simpa [List.map_map, Function.comp] using h

theorem storeAssign_keys (l : List (Node K V)) (i : Nat) (v : V) :
    (storeAssign l i v).map Node.key = l.map Node.key := by
  have h := congrArg (List.map Prod.snd) (storeAssign_idKey l i v)
  simpa [List.map_map, Function.comp] using h

theorem storeAssign_length (l : List (Node K V)) (i : Nat) (v : V) :
    (storeAssign l i v).length = l.length := by
  have h := congrArg List.length (storeAssign_idKey l i v)
  simpa using h

theorem storeAssign_exists_of_mem {l : List (Node K V)} (i : Nat) (v : V)
    {n : Node K V} (hm : n ∈ l) :
    ∃ n' ∈ storeAssign l i v, n'.id = n.id ∧ n'.key = n.key := by
  have : (n.id, n.key) ∈ (storeAssign l i v).map (fun m => (m.id, m.key)) := by
    rw [storeAssign_idKey]
    exact List.mem_map_of_mem _ hm
  rcases List.mem_map.mp this with ⟨n', hn', he⟩
  exact ⟨n', hn', congrArg Prod.fst he, congrArg Prod.snd he⟩

theorem storeAssign_mem_exists {l : List (Node K V)} (i : Nat) (v : V)
    {n' : Node K V} (hm : n' ∈ storeAssign l i v) :
    ∃ n ∈ l, n.id = n'.id ∧ n.key = n'.key := by
  have : (n'.id, n'.key) ∈ l.map (fun m => (m.id, m.key)) := by
    rw [← storeAssign_idKey l i v]
    exact List.mem_map_of_mem _ hm
  rcases List.mem_map.mp this with ⟨n, hn, he⟩
  exact ⟨n, hn, congrArg Prod.fst he, congrArg Prod.snd he⟩

theorem storeAssign_eraseP (l : List (Node K V)) (i : Nat) (v : V) :
    (storeAssign l i v).eraseP (fun m => m.id = i) =
      l.eraseP (fun m => m.id = i) := by
  induction l with
  | nil => simp [storeAssign]
  | cons q qs ih =>
      by_cases h : q.id = i
      · simp [storeAssign, h, List.eraseP_cons]
      · simp [storeAssign, h, List.eraseP_cons, ih]

theorem storeAssign_cons_head (l : List (Node K V)) (n : Node K V) (v : V) :
    storeAssign (n :: l) n.id v = { n with val := v } :: l := by
  simp [storeAssign]

/-! Behaviour of `_promote`, `_evict` and `_prune`. -/

theorem find?_perm_cons_eraseP {p : Node K V → Bool} {l : List (Node K V)}
    {n : Node K V} (h : l.find? p = some n) :
    l.Perm (n :: l.eraseP p) := by
  induction l with
  | nil => simp at h
  | cons q qs ih =>
      by_cases hq : p q
      · rw [List.find?_cons_of_pos _ hq] at h
        cases h
        rw [List.eraseP_cons_of_pos hq]
      · rw [List.find?_cons_of_neg _ hq] at h
        rw [List.eraseP_cons_of_neg hq]
        exact ((ih h).cons q).trans (List.Perm.swap n q _)

theorem promote_list {c : lru K V} {i : Nat} {n : Node K V}
    (h : storeFind c.list i = some n) :
    (promote c i).list = n :: c.list.eraseP (fun m => m.id = i) := by
  unfold promote
  rw [h]
  dsimp only
  by_cases hh : c.list.head?.map Node.id = some i
  · rw [if_pos hh]
    cases hl : c.list with
    | nil => rw [hl] at hh; simp at hh
    | cons q qs =>
        rw [hl] at hh
        simp only [List.head?_cons, Option.map_some] at hh
        have hq : q.id = i := by simpa using hh
        rw [hl] at h
        unfold storeFind at h
        rw [List.find?_cons_of_pos _ (by simpa using hq)] at h
        cases h
        rw [List.eraseP_cons_of_pos (by simpa using hq)]
  · rw [if_neg hh]

theorem promote_perm (c : lru K V) (i : Nat) :
    (promote c i).list.Perm c.list := by
  cases h : storeFind c.list i with
  | none => unfold promote; rw [h]
  | some n =>
      rw [promote_list h]
      exact (find?_perm_cons_eraseP h).symm

theorem promote_map (c : lru K V) (i : Nat) : (promote c i).map = c.map := by
  unfold promote
  cases storeFind c.list i with
  | none => rfl
  | some n =>
      dsimp only
      split <;> rfl

theorem promote_capacity (c : lru K V) (i : Nat) :
    (promote c i).capacity = c.capacity := by
  unfold promote
  cases storeFind c.list i with
  | none => rfl
  | some n =>
      dsimp only
      split <;> rfl

theorem promote_nextId (c : lru K V) (i : Nat) :
    (promote c i).nextId = c.nextId := by
  unfold promote
  cases storeFind c.list i with
  | none => rfl
  | some n =>
      dsimp only
      split <;> rfl

theorem promote_length (c : lru K V) (i : Nat) :
    (promote c i).list.length = c.list.length :=
  (promote_perm c i).length_eq

theorem evict_list (c : lru K V) : (evict c).list = c.list.dropLast := by
  unfold evict
  cases hl : c.list.getLast? with
  | none =>
      have : c.list = [] := List.getLast?_eq_none_iff.mp hl
      rw [this]
      rfl
  | some n => rfl

theorem evict_capacity (c : lru K V) : (evict c).capacity = c.capacity := by
  unfold evict
  cases c.list.getLast? <;> rfl

theorem evict_nextId (c : lru K V) : (evict c).nextId = c.nextId := by
  unfold evict
  cases c.list.getLast? <;> rfl

theorem prune_list (c : lru K V) (cap : Nat) :
    (prune c cap).list = c.list.take cap := by
  rw [prune_eq]
  by_cases h : c.list.length ≤ cap
  · rw [if_pos h, List.take_of_length_le h]
  · rw [if_neg h, prune_list (evict c) cap, evict_list, List.dropLast_eq_take,
      List.take_take]
    congr 1
    omega
termination_by c.list.length
decreasing_by
  exact evict_length_lt c (by intro hnil; rw [hnil] at h; exact h (Nat.zero_le cap))

theorem prune_length_le (c : lru K V) (cap : Nat) :
    (prune c cap).list.length ≤ cap := by
  rw [prune_list]
  simp [List.length_take]

theorem prune_capacity (c : lru K V) (cap : Nat) :
    (prune c cap).capacity = c.capacity := by
  rw [prune_eq]
  by_cases h : c.list.length ≤ cap
  · rw [if_pos h]
  · rw [if_neg h, prune_capacity (evict c) cap, evict_capacity]
termination_by c.list.length
decreasing_by
  exact evict_length_lt c (by intro hnil; rw [hnil] at h; exact h (Nat.zero_le cap))

theorem prune_nextId (c : lru K V) (cap : Nat) :
    (prune c cap).nextId = c.nextId := by
  rw [prune_eq]
  by_cases h : c.list.length ≤ cap
  · rw [if_pos h]
  · rw [if_neg h, prune_nextId (evict c) cap, evict_nextId]
termination_by c.list.length
decreasing_by
  exact evict_length_lt c (by intro hnil; rw [hnil] at h; exact h (Nat.zero_le cap))


theorem inv_of_perm {c c' : lru K V} (hmap : c'.map = c.map)
    (hperm : c'.list.Perm c.list) (hnext : c'.nextId = c.nextId)
    (h : Inv c) : Inv c' := by
  obtain ⟨⟨h1, h2, h3, h4, h5⟩, h6⟩ := h
  refine ⟨⟨?_, ?_, ?_, ?_, ?_⟩, ?_⟩
  · intro p hp
    rw [hmap] at hp
    rcases h1 p hp with ⟨n, hn, hid, hkey⟩
    exact ⟨n, hperm.mem_iff.mpr hn, hid, hkey⟩
  · intro n hn
    rw [hmap]
    exact h2 n (hperm.mem_iff.mp hn)
  · rw [hmap]; exact h3
  · exact ((hperm.map Node.key).nodup_iff).mpr h4
  · exact ((hperm.map Node.id).nodup_iff).mpr h5
  · intro n hn
    rw [hnext]
    exact h6 n (hperm.mem_iff.mp hn)

theorem promote_inv {c : lru K V} (i : Nat) (h : Inv c) :
    Inv (promote c i) :=
  inv_of_perm (promote_map c i) (promote_perm c i) (promote_nextId c i) h

theorem evict_inv {c : lru K V} (h : Inv c) : Inv (evict c) := by
  obtain ⟨⟨h1, h2, h3, h4, h5⟩, h6⟩ := h
  unfold evict
  cases hl : c.list.getLast? with
  | none => exact ⟨⟨h1, h2, h3, h4, h5⟩, h6⟩
  | some n =>
      obtain ⟨l', hl'⟩ := List.getLast?_eq_some_iff.mp hl
      rw [hl'] at h1 h2 h4 h5 h6 ⊢
      rw [List.dropLast_concat]
      have hkeys : (l'.map Node.key).Nodup ∧ n.key ∉ l'.map Node.key := by
        rw [List.map_append] at h4
        simp only [List.map_cons, List.map_nil] at h4
        constructor
        · exact h4.sublist (List.sublist_append_left _ _)
        · intro hmem
          rcases (List.nodup_append.mp h4) with ⟨_, _, hdisj⟩
          exact hdisj hmem (List.mem_singleton_self _)
      refine ⟨⟨?_, ?_, ?_, hkeys.1, ?_⟩, ?_⟩
      · intro p hp
        have hpmem : p ∈ c.map := (mapErase_sublist c.map n.key).mem hp
        have hpne : p.1 ≠ n.key := by
          intro he
          have : p = (n.key, p.2) := by
            rw [← he]
          rw [this] at hp
          exact not_mem_mapErase h3 p.2 hp
        rcases h1 p hpmem with ⟨m, hm, hid, hkey⟩
        rcases List.mem_append.mp hm with hml | hmr
        · exact ⟨m, hml, hid, hkey⟩
        · rw [List.mem_singleton.mp hmr] at hkey
          exact absurd hkey.symm hpne
      · intro m hm
        have hmkey : m.key ≠ n.key := by
          intro he
          exact hkeys.2 (he ▸ List.mem_map_of_mem Node.key hm)
        exact mem_mapErase_of_ne
          (h2 m (List.mem_append.mpr (Or.inl hm))) hmkey
      · exact (mapErase_keys_sublist c.map n.key).nodup h3
      · rw [List.map_append] at h5
        exact h5.sublist (List.sublist_append_left _ _)
      · intro m hm
        exact h6 m (List.mem_append.mpr (Or.inl hm))

theorem prune_inv {c : lru K V} (cap : Nat) (h : Inv c) :
    Inv (prune c cap) := by
  rw [prune_eq]
  by_cases hl : c.list.length ≤ cap
  · rw [if_pos hl]; exact h
  · rw [if_neg hl]
    exact prune_inv cap (evict_inv h)
termination_by c.list.length
decreasing_by
  exact evict_length_lt c (by intro hnil; rw [hnil] at hl; exact hl (Nat.zero_le cap))

theorem inv_of_idKey_eq {c c' : lru K V} (hmap : c'.map = c.map)
    (hlist : c'.list.map (fun n => (n.id, n.key)) =
      c.list.map (fun n => (n.id, n.key)))
    (hnext : c'.nextId = c.nextId) (h : Inv c) : Inv c' := by
  obtain ⟨⟨h1, h2, h3, h4, h5⟩, h6⟩ := h
  have hkeys : c'.list.map Node.key = c.list.map Node.key := by
    have := congrArg (List.map Prod.snd) hlist
    simpa [List.map_map, Function.comp] using this
  have hids : c'.list.map Node.id = c.list.map Node.id := by
    have := congrArg (List.map Prod.fst) hlist
    simpa [List.map_map, Function.comp] using this
  refine ⟨⟨?_, ?_, ?_, ?_, ?_⟩, ?_⟩
  · intro p hp
    rw [hmap] at hp
    rcases h1 p hp with ⟨n, hn, hid, hkey⟩
    have : (n.id, n.key) ∈ c'.list.map (fun n => (n.id, n.key)) := by
      rw [hlist]
      exact List.mem_map_of_mem _ hn
    rcases List.mem_map.mp this with ⟨n', hn', he⟩
    rw [Prod.mk.injEq] at he
    exact ⟨n', hn', he.1.trans hid, he.2.trans hkey⟩
  · intro n' hn'
    have : (n'.id, n'.key) ∈ c.list.map (fun n => (n.id, n.key)) := by
      rw [← hlist]
      exact List.mem_map_of_mem _ hn'
    rcases List.mem_map.mp this with ⟨n, hn, he⟩
    rw [Prod.mk.injEq] at he
    rw [hmap, ← he.1, ← he.2]
    exact h2 n hn
  · rw [hmap]; exact h3
  · rw [hkeys]; exact h4
  · rw [hids]; exact h5
  · intro n' hn'
    have : (n'.id, n'.key) ∈ c.list.map (fun n => (n.id, n.key)) := by
      rw [← hlist]
      exact List.mem_map_of_mem _ hn'
    rcases List.mem_map.mp this with ⟨n, hn, he⟩
    rw [Prod.mk.injEq] at he
    rw [hnext, ← he.1]
    exact h6 n hn

theorem key_not_mem_of_mapFind_none {c : lru K V} {k : K}
    (habs : mapFind c.map k = none) (h : Inv c) :
    k ∉ c.list.map Node.key := by
  intro hmem
  rcases List.mem_map.mp hmem with ⟨n, hn, hkey⟩
  have := h.1.2.1 n hn
  rw [hkey] at this
  exact mapFind_isSome_of_mem this habs

theorem insert_mid_inv {c : lru K V} {k : K} (v : V)
    (habs : mapFind c.map k = none) (h : Inv c) :
    Inv { c with
          list := ⟨c.nextId, k, v⟩ :: c.list
          map := mapSet c.map k c.nextId
          nextId := c.nextId + 1 } := by
  obtain ⟨⟨h1, h2, h3, h4, h5⟩, h6⟩ := h
  rw [mapSet_of_absent c.nextId habs]
  have hknotin : k ∉ c.map.map Prod.fst := by
    intro hmem
    rcases List.mem_map.mp hmem with ⟨p, hp, hkey⟩
    have : (k, p.2) ∈ c.map := by
      rw [← hkey]
      exact (by simpa using hp : (p.1, p.2) ∈ c.map)
    exact mapFind_isSome_of_mem this habs
  refine ⟨⟨?_, ?_, ?_, ?_, ?_⟩, ?_⟩
  · intro p hp
    rcases List.mem_append.mp hp with hpl | hpr
    · rcases h1 p hpl with ⟨n, hn, hid, hkey⟩
      exact ⟨n, List.mem_cons_of_mem _ hn, hid, hkey⟩
    · rw [List.mem_singleton.mp hpr]
      exact ⟨⟨c.nextId, k, v⟩, List.mem_cons_self _ _, rfl, rfl⟩
  · intro n hn
    rcases List.mem_cons.mp hn with rfl | hmem
    · exact List.mem_append.mpr (Or.inr (List.mem_singleton_self _))
    · exact List.mem_append.mpr (Or.inl (h2 n hmem))
  · rw [List.map_append]
    refine List.Nodup.append h3 (by simp) ?_
    intro a ha hb
    simp only [List.map_cons, List.map_nil, List.mem_singleton] at hb
    rw [hb] at ha
    exact hknotin ha
  · simp only [List.map_cons, List.nodup_cons]
    exact ⟨key_not_mem_of_mapFind_none habs ⟨⟨h1, h2, h3, h4, h5⟩, h6⟩, h4⟩
  · simp only [List.map_cons, List.nodup_cons]
    refine ⟨?_, h5⟩
    intro hmem
    rcases List.mem_map.mp hmem with ⟨n, hn, hid⟩
    exact absurd hid (Nat.ne_of_lt (h6 n hn))
  · intro n hn
    rcases List.mem_cons.mp hn with rfl | hmem
    · exact Nat.lt_succ_self _
    · exact Nat.lt_succ_of_lt (h6 n hmem)

theorem insertNew_inv {c : lru K V} {k : K} (v : V)
    (habs : mapFind c.map k = none) (h : Inv c) :
    Inv (insertNew c k v) := by
  unfold insertNew
  exact prune_inv _ (insert_mid_inv v habs h)

theorem storeAssign_inv {c : lru K V} (i : Nat) (v : V) (h : Inv c) :
    Inv { c with list := storeAssign c.list i v } := by
  refine inv_of_idKey_eq ?_ ?_ ?_ h
  · rfl
  · exact storeAssign_idKey c.list i v
  · rfl

theorem for_each_inv {c : lru K V} (f : K → V → V) (h : Inv c) :
    Inv (for_each c f) := by
  refine inv_of_idKey_eq ?_ ?_ ?_ h
  · rfl
  · unfold for_each
    simp [List.map_map, Function.comp]
  · rfl

theorem inv_capacity_irrel {c : lru K V} (cap : Nat) (h : Inv c) :
    Inv { c with capacity := cap } := by
  obtain ⟨⟨h1, h2, h3, h4, h5⟩, h6⟩ := h
  exact ⟨⟨h1, h2, h3, h4, h5⟩, h6⟩

/-- Resolve an Index binding to its node, under the invariant. -/
theorem resolve_handle {c : lru K V} {k : K} {i : Nat} (h : Inv c)
    (hm : mapFind c.map k = some i) :
    ∃ n, storeFind c.list i = some n ∧ n ∈ c.list ∧ n.id = i ∧ n.key = k := by
  have hmem := mem_of_mapFind_eq_some hm
  rcases h.1.1 (k, i) hmem with ⟨n, hn, hid, hkey⟩
  exact ⟨n, storeFind_eq_some_of_mem hn hid h.1.2.2.2.2, hn, hid, hkey⟩

theorem insert_inv {c : lru K V} (k : K) (v : V) (h : Inv c) :
    Inv (insert c k v).2 := by
  unfold insert
  by_cases hp : (mapFind c.map k).isSome
  · rw [if_pos hp]; exact h
  · rw [if_neg hp]
    exact insertNew_inv v (Option.not_isSome_iff_eq_none.mp hp) h

theorem insert_or_assign_inv {c : lru K V} (k : K) (v : V) (h : Inv c) :
    Inv (insert_or_assign c k v).2 := by
  unfold insert_or_assign
  cases hm : mapFind c.map k with
  | none => exact insertNew_inv v hm h
  | some i => exact promote_inv i (storeAssign_inv i v h)

theorem find_snd_eq (c : lru K V) (k : K) :
    (find c k).2 = c ∨
      ∃ i, mapFind c.map k = some i ∧ (find c k).2 = promote c i := by
  cases hm : mapFind c.map k with
  | none => left; simp [find, hm]
  | some i =>
      cases hs : storeFind c.list i with
      | none => left; simp [find, hm, hs]
      | some n => right; exact ⟨i, rfl, by simp [find, hm, hs]⟩

theorem get_snd (c : lru K V) (k : K) : (get c k).2 = (find c k).2 := by
  cases hm : mapFind c.map k with
  | none => simp [find, get, hm]
  | some i =>
      cases hs : storeFind c.list i with
      | none => simp [find, get, hm, hs]
      | some n => simp [find, get, hm, hs]

theorem get_copy_snd (c : lru K V) (k : K) :
    (get_copy c k).2 = (find c k).2 := by
  cases hm : mapFind c.map k with
  | none => simp [find, get_copy, hm]
  | some i =>
      cases hs : storeFind c.list i with
      | none => simp [find, get_copy, hm, hs]
      | some n => simp [find, get_copy, hm, hs]

theorem contains_snd (c : lru K V) (k : K) :
    (contains c k).2 = (find c k).2 := rfl

theorem find_inv {c : lru K V} (k : K) (h : Inv c) : Inv (find c k).2 := by
  rcases find_snd_eq c k with he | ⟨i, _, he⟩
  · rw [he]; exact h
  · rw [he]; exact promote_inv i h

theorem get_inv {c : lru K V} (k : K) (h : Inv c) : Inv (get c k).2 := by
  rw [get_snd]
  exact find_inv k h

theorem get_copy_inv {c : lru K V} (k : K) (h : Inv c) :
    Inv (get_copy c k).2 := by
  rw [get_copy_snd]
  exact find_inv k h

theorem contains_inv {c : lru K V} (k : K) (h : Inv c) :
    Inv (contains c k).2 :=
  find_inv k h

theorem try_update_inv {c : lru K V} (k : K) (f : V → V) (h : Inv c) :
    Inv (try_update c k f).2 := by
  unfold try_update
  have hf := find_inv k h
  cases hfind : find c k with
  | mk r c' =>
      rw [hfind] at hf
      cases r with
      | none => exact hf
      | some n => exact storeAssign_inv n.id (f n.val) hf

theorem resize_inv {c : lru K V} (cap : Nat) (h : Inv c) :
    Inv (resize c cap) :=
  inv_capacity_irrel cap (prune_inv cap h)

theorem clear_inv (c : lru K V) : Inv (clear c) := by
  unfold clear Inv Bijection
  simp

theorem applyOp_inv {c : lru K V} (op : Op K V) (h : Inv c) :
    Inv (applyOp c op) := by
  cases op with
  | insert k v => exact insert_inv k v h
  | insertOrAssign k v => exact insert_or_assign_inv k v h
  | find k => exact find_inv k h
  | get k => exact get_inv k h
  | getCopy k => exact get_copy_inv k h
  | contains k => exact contains_inv k h
  | tryUpdate k f => exact try_update_inv k f h
  | forEach f => exact for_each_inv f h
  | resize n => exact resize_inv n h
  | clear => exact clear_inv c

theorem run_inv {c : lru K V} (ops : List (Op K V)) (h : Inv c) :
    Inv (run c ops) := by
  induction ops generalizing c with
  | nil => exact h
  | cons op ops ih => exact ih (applyOp_inv op h)

theorem ofCapacity_inv (cap : Nat) : Inv (ofCapacity (K := K) (V := V) cap) := by
  unfold ofCapacity Inv Bijection
  simp

/-! Preservation of the capacity bound. -/

theorem insertNew_sizeOk (c : lru K V) (k : K) (v : V) :
    (insertNew c k v).size ≤ (insertNew c k v).capacity := by
  unfold insertNew size
  rw [prune_capacity]
  exact prune_length_le _ _

theorem promote_sizeOk {c : lru K V} (i : Nat) (h : c.size ≤ c.capacity) :
    (promote c i).size ≤ (promote c i).capacity := by
  unfold size at *
  rw [promote_length, promote_capacity]
  exact h

theorem find_sizeOk {c : lru K V} (k : K) (h : c.size ≤ c.capacity) :
    (find c k).2.size ≤ (find c k).2.capacity := by
  rcases find_snd_eq c k with he | ⟨i, _, he⟩
  · rw [he]; exact h
  · rw [he]; exact promote_sizeOk i h

theorem applyOp_sizeOk {c : lru K V} (op : Op K V)
    (h : c.size ≤ c.capacity) :
    (applyOp c op).size ≤ (applyOp c op).capacity := by
  cases op with
  | insert k v =>
      show (insert c k v).2.size ≤ (insert c k v).2.capacity
      unfold insert
      by_cases hp : (mapFind c.map k).isSome
      · rw [if_pos hp]; exact h
      · rw [if_neg hp]; exact insertNew_sizeOk c k v
  | insertOrAssign k v =>
      show (insert_or_assign c k v).2.size ≤ (insert_or_assign c k v).2.capacity
      unfold insert_or_assign
      cases hm : mapFind c.map k with
      | none => exact insertNew_sizeOk c k v
      | some i =>
          refine promote_sizeOk i ?_
          unfold size at *
          simpa [storeAssign_length] using h
  | find k =>
      exact find_sizeOk k h
  | get k =>
      show (get c k).2.size ≤ (get c k).2.capacity
      rw [get_snd]
      exact find_sizeOk k h
  | getCopy k =>
      show (get_copy c k).2.size ≤ (get_copy c k).2.capacity
      rw [get_copy_snd]
      exact find_sizeOk k h
  | contains k =>
      show (contains c k).2.size ≤ (contains c k).2.capacity
      rw [contains_snd]
      exact find_sizeOk k h
  | tryUpdate k f =>
      show (try_update c k f).2.size ≤ (try_update c k f).2.capacity
      unfold try_update
      have hf := find_sizeOk k h
      cases hfind : find c k with
      | mk r c' =>
          rw [hfind] at hf
          cases r with
          | none => exact hf
          | some n =>
              unfold size at *
              simpa [storeAssign_length] using hf
  | forEach f =>
      show (for_each c f).size ≤ (for_each c f).capacity
      unfold for_each size at *
      simpa using h
  | resize n =>
      show (resize c n).size ≤ (resize c n).capacity
      unfold resize size
      exact prune_length_le _ _
  | clear =>
      show (clear c).size ≤ (clear c).capacity
      unfold clear size
      simp

theorem run_sizeOk {c : lru K V} (ops : List (Op K V))
    (h : c.size ≤ c.capacity) :
    (run c ops).size ≤ (run c ops).capacity := by
  induction ops generalizing c with
  | nil => exact h
  | cons op ops ih => exact ih (applyOp_sizeOk op h)

/-! Shape of the state after each operation, used by the contracts. -/

theorem storeFind_storeAssign {l : List (Node K V)} {i : Nat} {n : Node K V}
    (h : storeFind l i = some n) (v : V) :
    storeFind (storeAssign l i v) i = some { n with val := v } := by
  induction l with
  | nil => simp [storeFind] at h
  | cons q qs ih =>
      by_cases hq : q.id = i
      · unfold storeFind at h
        rw [List.find?_cons_of_pos _ (by simpa using hq)] at h
        cases h
        simp [storeAssign, hq, storeFind, List.find?]
      · unfold storeFind at h
        rw [List.find?_cons_of_neg _ (by simpa using hq)] at h
        have := ih h
        unfold storeFind at this ⊢
        rw [storeAssign, if_neg hq, List.find?_cons_of_neg _ (by simpa using hq)]
        exact this

theorem insertNew_list (c : lru K V) (k : K) (v : V) :
    (insertNew c k v).list = (⟨c.nextId, k, v⟩ :: c.list).take c.capacity := by
  unfold insertNew
  rw [prune_list]

theorem insertNew_capacity (c : lru K V) (k : K) (v : V) :
    (insertNew c k v).capacity = c.capacity := by
  unfold insertNew
  rw [prune_capacity]

theorem insert_eq_present {c : lru K V} {k : K} (v : V)
    (hm : (mapFind c.map k).isSome) : insert c k v = (false, c) := by
  unfold insert
  rw [if_pos hm]

theorem insert_eq_absent {c : lru K V} {k : K} (v : V)
    (hm : mapFind c.map k = none) : insert c k v = (true, insertNew c k v) := by
  unfold insert
  rw [hm]
  rfl

theorem find_eq_absent {c : lru K V} {k : K} (hm : mapFind c.map k = none) :
    find c k = (none, c) := by
  simp [find, hm]

theorem find_eq_present {c : lru K V} {k : K} {i : Nat} {n : Node K V}
    (hm : mapFind c.map k = some i) (hs : storeFind c.list i = some n) :
    find c k = (some n, promote c i) := by
  simp [find, hm, hs]

theorem get_eq_present {c : lru K V} {k : K} {i : Nat} {n : Node K V}
    (hm : mapFind c.map k = some i) (hs : storeFind c.list i = some n) :
    get c k = (some n.val, promote c i) := by
  simp [get, hm, hs]

theorem get_copy_eq_present {c : lru K V} {k : K} {i : Nat} {n : Node K V}
    (hm : mapFind c.map k = some i) (hs : storeFind c.list i = some n) :
    get_copy c k = (some n.val, promote c i) := by
  simp [get_copy, hm, hs]

theorem try_update_eq_present {c : lru K V} {k : K} {i : Nat} {n : Node K V}
    (f : V → V) (hm : mapFind c.map k = some i)
    (hs : storeFind c.list i = some n) :
    try_update c k f =
      (true, { promote c i with
               list := storeAssign (promote c i).list n.id (f n.val) }) := by
  unfold try_update
  rw [find_eq_present hm hs]

theorem insert_or_assign_eq_present {c : lru K V} {k : K} {i : Nat} (v : V)
    (hm : mapFind c.map k = some i) :
    insert_or_assign c k v =
      (false, promote { c with list := storeAssign c.list i v } i) := by
  unfold insert_or_assign
  rw [hm]

theorem insert_or_assign_list_present {c : lru K V} {k : K} {i : Nat}
    {n : Node K V} (v : V) (hm : mapFind c.map k = some i)
    (hs : storeFind c.list i = some n) :
    (insert_or_assign c k v).2.list =
      { n with val := v } :: c.list.eraseP (fun m => m.id = i) := by
  rw [insert_or_assign_eq_present v hm]
  have hs' : storeFind (storeAssign c.list i v) i = some { n with val := v } :=
    storeFind_storeAssign hs v
  rw [show (promote { c with list := storeAssign c.list i v } i).list =
      { n with val := v } ::
        (storeAssign c.list i v).eraseP (fun m => m.id = i) from
    promote_list hs', storeAssign_eraseP]

end lru

/-! Simulation between the two implementations on their shared method
set: every method of `src/lru.h` acts on a reinterpreted state exactly
as the corresponding method of `src/include/lru.h`. -/

theorem toSmall_map (c : lru K V) : (toSmall c).map = c.map := rfl

theorem toSmall_list (c : lru K V) : (toSmall c).list = c.list := rfl

theorem toSmall_capacity (c : lru K V) : (toSmall c).capacity = c.capacity := rfl

theorem toSmall_nextId (c : lru K V) : (toSmall c).nextId = c.nextId := rfl

theorem toSmall_promote (c : lru K V) (i : Nat) :
    lruSmall.promote (toSmall c) i = toSmall (lru.promote c i) := by
  unfold toSmall lruSmall.promote lru.promote
  cases hs : lru.storeFind c.list i with
  | none => rfl
  | some n =>
      dsimp only
      split <;> rfl

theorem toSmall_evict (c : lru K V) :
    lruSmall.evict (toSmall c) = toSmall (lru.evict c) := by
  unfold toSmall lruSmall.evict lru.evict
  cases hl : c.list.getLast? with
  | none => rfl
  | some n => rfl

theorem toSmall_pruneFuel (fuel : Nat) (c : lru K V) (cap : Nat) :
    lruSmall.pruneFuel fuel (toSmall c) cap =
      toSmall (lru.pruneFuel fuel c cap) := by
  induction fuel generalizing c with
  | zero => rfl
  | succ fl ih =>
      rw [lruSmall.pruneFuel, lru.pruneFuel]
      simp only [toSmall_map, toSmall_list, toSmall_capacity, toSmall_nextId]
      by_cases hc : c.list.length ≤ cap
      · rw [if_pos hc, if_pos hc]
      · rw [if_neg hc, if_neg hc, toSmall_evict]
        exact ih (lru.evict c)

theorem toSmall_prune (c : lru K V) (cap : Nat) :
    lruSmall.prune (toSmall c) cap = toSmall (lru.prune c cap) :=
  toSmall_pruneFuel c.list.length c cap

theorem toSmall_insertNew (c : lru K V) (k : K) (v : V) :
    lruSmall.insertNew (toSmall c) k v = toSmall (lru.insertNew c k v) := by
  unfold lruSmall.insertNew lru.insertNew
  exact toSmall_prune
    { c with
      list := ⟨c.nextId, k, v⟩ :: c.list
      map := lru.mapSet c.map k c.nextId
      nextId := c.nextId + 1 } c.capacity

theorem toSmall_insert (c : lru K V) (k : K) (v : V) :
    lruSmall.insert (toSmall c) k v =
      ((lru.insert c k v).1, toSmall (lru.insert c k v).2) := by
  unfold lruSmall.insert lru.insert
  simp only [toSmall_map, toSmall_list, toSmall_capacity, toSmall_nextId]
  by_cases hp : (lru.mapFind c.map k).isSome
  · rw [if_pos hp, if_pos hp]
  · rw [if_neg hp, if_neg hp, toSmall_insertNew]

theorem toSmall_insert_or_assign (c : lru K V) (k : K) (v : V) :
    lruSmall.insert_or_assign (toSmall c) k v =
      ((lru.insert_or_assign c k v).1,
        toSmall (lru.insert_or_assign c k v).2) := by
  unfold lruSmall.insert_or_assign lru.insert_or_assign
  simp only [toSmall_map, toSmall_list, toSmall_capacity, toSmall_nextId]
  cases hm : lru.mapFind c.map k with
  | none =>
      dsimp only
      rw [toSmall_insertNew]
  | some i =>
      dsimp only
      have hcast :
          (⟨c.map, lru.storeAssign c.list i v, c.capacity, c.nextId⟩ :
            lruSmall K V) =
          toSmall { c with list := lru.storeAssign c.list i v } := rfl
      rw [hcast, toSmall_promote]

theorem toSmall_find (c : lru K V) (k : K) :
    lruSmall.find (toSmall c) k =
      ((lru.find c k).1, toSmall (lru.find c k).2) := by
  unfold lruSmall.find lru.find
  simp only [toSmall_map, toSmall_list, toSmall_capacity, toSmall_nextId]
  cases hm : lru.mapFind c.map k with
  | none => rfl
  | some i =>
      dsimp only
      cases hs : lru.storeFind c.list i with
      | none => rfl
      | some n =>
          dsimp only
          rw [toSmall_promote]

theorem toSmall_contains (c : lru K V) (k : K) :
    lruSmall.contains (toSmall c) k =
      ((lru.contains c k).1, toSmall (lru.contains c k).2) := by
  unfold lruSmall.contains lru.contains
  rw [toSmall_find]

theorem toSmall_try_update (c : lru K V) (k : K) (f : V → V) :
    lruSmall.try_update (toSmall c) k f =
      ((lru.try_update c k f).1, toSmall (lru.try_update c k f).2) := by
  unfold lruSmall.try_update lru.try_update
  rw [toSmall_find]
  cases hf : lru.find c k with
  | mk r d =>
      cases r with
      | none => rfl
      | some n => rfl

theorem toSmall_for_each (c : lru K V) (f : K → V → V) :
    lruSmall.for_each (toSmall c) f = toSmall (lru.for_each c f) := rfl

theorem toSmall_resize (c : lru K V) (cap : Nat) :
    lruSmall.resize (toSmall c) cap = toSmall (lru.resize c cap) := by
  unfold lruSmall.resize lru.resize
  rw [toSmall_prune]
  rfl

theorem toSmall_clear (c : lru K V) :
    lruSmall.clear (toSmall c) = toSmall (lru.clear c) := rfl

theorem toSmall_step (c : lru K V) (op : SharedOp K V) :
    lruSmall.stepShared (toSmall c) op =
      ((lru.stepShared c op).1, toSmall (lru.stepShared c op).2) := by
  cases op with
  | insert k v =>
      show (Out.flag (lruSmall.insert (toSmall c) k v).1,
        (lruSmall.insert (toSmall c) k v).2) = _
      rw [toSmall_insert]
      rfl
  | insertOrAssign k v =>
      show (Out.flag (lruSmall.insert_or_assign (toSmall c) k v).1,
        (lruSmall.insert_or_assign (toSmall c) k v).2) = _
      rw [toSmall_insert_or_assign]
      rfl
  | find k =>
      show (Out.entry ((lruSmall.find (toSmall c) k).1.map
          (fun n => (n.key, n.val))), (lruSmall.find (toSmall c) k).2) = _
      rw [toSmall_find]
      rfl
  | contains k =>
      show (Out.flag (lruSmall.contains (toSmall c) k).1,
        (lruSmall.contains (toSmall c) k).2) = _
      rw [toSmall_contains]
      rfl
  | tryUpdate k f =>
      show (Out.flag (lruSmall.try_update (toSmall c) k f).1,
        (lruSmall.try_update (toSmall c) k f).2) = _
      rw [toSmall_try_update]
      rfl
  | forEach f =>
      show (Out.unit, lruSmall.for_each (toSmall c) f) = _
      rw [toSmall_for_each]
      rfl
  | resize n =>
      show (Out.unit, lruSmall.resize (toSmall c) n) = _
      rw [toSmall_resize]
      rfl
  | clear =>
      show (Out.unit, lruSmall.clear (toSmall c)) = _
      rw [toSmall_clear]
      rfl
  | size => rfl
  | emptyQ => rfl
  | maxSize => rfl

theorem toSmall_runShared (ops : List (SharedOp K V)) (c : lru K V) :
    lruSmall.runShared (toSmall c) ops =
      (toSmall (lru.runShared c ops).1, (lru.runShared c ops).2) := by
  induction ops generalizing c with
  | nil => rfl
  | cons op ops ih =>
      rw [lruSmall.runShared, lru.runShared]
      dsimp only
      rw [toSmall_step, ih (lru.stepShared c op).2]

/-! Claim theorems. -/

/-- Claim C1 (capacity bound invariant): for every sequence of public
operations starting from a cache constructed with capacity `cap`,
`size() ≤` the current capacity holds after every operation returns. -/
theorem C1_capacity_bound (cap : Nat) (ops : List (Op K V)) :
    (lru.run (lru.ofCapacity cap) ops).size ≤
      (lru.run (lru.ofCapacity cap) ops).capacity :=
  lru.run_sizeOk ops (by simp [lru.ofCapacity, lru.size])

/-- Claim C2 (Index/Recency-Sequence bijection invariant): after every
completed public operation, every key in the Index maps to exactly one
Entry in the Recency Sequence whose key matches and which the mapped
handle designates, and every Entry's key is present in the Index. -/
theorem C2_bijection (cap : Nat) (ops : List (Op K V)) :
    (lru.run (lru.ofCapacity cap) ops).Bijection :=
  (lru.run_inv ops (lru.ofCapacity_inv cap)).1

/-- Claim C6 (resize-down): when `n < size()`, `resize n` leaves
`size() == n`, retains exactly the `n` most-recently-touched entries
(the length-`n` head segment of the recency order), and sets the
capacity to `n` so that `max_size() == n` afterwards. -/
theorem C6_resize_down (c : lru K V) (n : Nat) (h : n < c.size) :
    (c.resize n).capacity = n ∧ (c.resize n).max_size = n ∧
      (c.resize n).size = n ∧ (c.resize n).list = c.list.take n := by
  have hl : (c.resize n).list = c.list.take n := by
    show (lru.prune c n).list = c.list.take n
    rw [lru.prune_list]
  refine ⟨rfl, rfl, ?_, hl⟩
  show (c.resize n).list.length = n
  rw [hl, List.length_take]
  unfold lru.size at h
  omega

/-- Witness for C6: capacity 3, three inserted keys, resize to 1 keeps
exactly the most recently touched entry. -/
theorem C6_witness :
    1 < (lru.run (lru.ofCapacity 3)
          [Op.insert (1 : Nat) (10 : Nat), Op.insert 2 20, Op.insert 3 30]).size ∧
    ((lru.run (lru.ofCapacity 3)
          [Op.insert (1 : Nat) (10 : Nat), Op.insert 2 20, Op.insert 3 30]).resize 1).capacity = 1 ∧
    ((lru.run (lru.ofCapacity 3)
          [Op.insert (1 : Nat) (10 : Nat), Op.insert 2 20, Op.insert 3 30]).resize 1).max_size = 1 ∧
    ((lru.run (lru.ofCapacity 3)
          [Op.insert (1 : Nat) (10 : Nat), Op.insert 2 20, Op.insert 3 30]).resize 1).size = 1 ∧
    ((lru.run (lru.ofCapacity 3)
          [Op.insert (1 : Nat) (10 : Nat), Op.insert 2 20, Op.insert 3 30]).resize 1).list =
      (lru.run (lru.ofCapacity 3)
          [Op.insert (1 : Nat) (10 : Nat), Op.insert 2 20, Op.insert 3 30]).list.take 1 :=
  ⟨by decide,
    C6_resize_down (lru.run (lru.ofCapacity 3)
      [Op.insert (1 : Nat) (10 : Nat), Op.insert 2 20, Op.insert 3 30]) 1 (by decide)⟩

/-- Claim C7 (idempotence of absence): `find` on an absent key returns
the empty result and leaves the whole cache state unchanged, so the
size, the recency order, and every other entry's value and position are
untouched and no Entry is created. -/
theorem C7_find_absent (c : lru K V) (k : K)
    (h : lru.mapFind c.map k = none) : c.find k = (none, c) :=
  lru.find_eq_absent h

/-- Witness for C7: looking up an absent key in a concrete one-entry
cache returns the empty result and the unchanged state. -/
theorem C7_witness :
    lru.mapFind (lru.run (lru.ofCapacity 2)
        [Op.insert (1 : Nat) (10 : Nat)]).map 5 = none ∧
    (lru.run (lru.ofCapacity 2) [Op.insert (1 : Nat) (10 : Nat)]).find 5 =
      (none, lru.run (lru.ofCapacity 2) [Op.insert (1 : Nat) (10 : Nat)]) :=
  ⟨by decide,
    C7_find_absent (lru.run (lru.ofCapacity 2) [Op.insert (1 : Nat) (10 : Nat)]) 5
      (by decide)⟩

/-- Claim C10 (clear preserves capacity): `clear` removes all entries,
emptying both Index and Recency Sequence, but leaves the configured
capacity unchanged, so `max_size()` is the same before and after and a
subsequent insert is still bounded by the original capacity. -/
theorem C10_clear_preserves_capacity (c : lru K V) (k : K) (v : V) :
    c.clear.capacity = c.capacity ∧ c.clear.max_size = c.max_size ∧
      c.clear.size = 0 ∧ c.clear.map = [] ∧ c.clear.list = [] ∧
      (c.clear.insert k v).2.size ≤ c.max_size := by
  refine ⟨rfl, rfl, rfl, rfl, rfl, ?_⟩
  rw [lru.insert_eq_absent v (by rfl)]
  have h := lru.insertNew_sizeOk c.clear k v
  rw [lru.insertNew_capacity] at h
  exact h

/-- Claim C3 (order consistency): under the invariant, every touch
operation on a present key (`find`, `get`, `get_copy`, `contains`,
`try_update`, `insert_or_assign`) immediately moves that key's Entry to
the head of the recency order leaving the relative order of the other
entries unchanged, an insert of an absent key places the new Entry at
the head (then keeps the capacity-length prefix), and eviction always
removes the current tail. -/
theorem C3_order_consistency (c : lru K V) (k : K) (i : Nat) (v : V)
    (f : V → V) (h : c.Inv) (hm : lru.mapFind c.map k = some i) :
    (∃ n, n ∈ c.list ∧ n.id = i ∧ n.key = k ∧
      (c.find k).2.list = n :: c.list.eraseP (fun m => m.id = i) ∧
      (c.get k).2.list = n :: c.list.eraseP (fun m => m.id = i) ∧
      (c.get_copy k).2.list = n :: c.list.eraseP (fun m => m.id = i) ∧
      (c.contains k).2.list = n :: c.list.eraseP (fun m => m.id = i) ∧
      (c.try_update k f).2.list =
        { n with val := f n.val } :: c.list.eraseP (fun m => m.id = i) ∧
      (c.insert_or_assign k v).2.list =
        { n with val := v } :: c.list.eraseP (fun m => m.id = i)) ∧
    (∀ k2 v2, lru.mapFind c.map k2 = none →
      (c.insert k2 v2).2.list =
        (⟨c.nextId, k2, v2⟩ :: c.list).take c.capacity) ∧
    (∀ d : lru K V, d.evict.list = d.list.dropLast) := by
  obtain ⟨n, hs, hn, hid, hkey⟩ := lru.resolve_handle h hm
  refine ⟨⟨n, hn, hid, hkey, ?_, ?_, ?_, ?_, ?_, ?_⟩, ?_, lru.evict_list⟩
  · rw [lru.find_eq_present hm hs]
    exact lru.promote_list hs
  · rw [lru.get_eq_present hm hs]
    exact lru.promote_list hs
  · rw [lru.get_copy_eq_present hm hs]
    exact lru.promote_list hs
  · rw [lru.contains_snd, lru.find_eq_present hm hs]
    exact lru.promote_list hs
  · rw [lru.try_update_eq_present f hm hs]
    show lru.storeAssign (lru.promote c i).list n.id (f n.val) = _
    rw [lru.promote_list hs]
    exact lru.storeAssign_cons_head _ n (f n.val)
  · exact lru.insert_or_assign_list_present v hm hs
  · intro k2 v2 habs
    rw [lru.insert_eq_absent v2 habs]
    exact lru.insertNew_list c k2 v2

/-- Witness for C3: touching the tail key of a concrete two-entry cache
moves it to the head in every touch operation. -/
theorem C3_witness :
    cacheA.Inv ∧ lru.mapFind cacheA.map 1 = some 0 ∧
    ((∃ n, n ∈ cacheA.list ∧ n.id = 0 ∧ n.key = 1 ∧
      (cacheA.find 1).2.list = n :: cacheA.list.eraseP (fun m => m.id = 0) ∧
      (cacheA.get 1).2.list = n :: cacheA.list.eraseP (fun m => m.id = 0) ∧
      (cacheA.get_copy 1).2.list =
        n :: cacheA.list.eraseP (fun m => m.id = 0) ∧
      (cacheA.contains 1).2.list =
        n :: cacheA.list.eraseP (fun m => m.id = 0) ∧
      (cacheA.try_update 1 (fun x => x + 1)).2.list =
        { n with val := n.val + 1 } ::
          cacheA.list.eraseP (fun m => m.id = 0) ∧
      (cacheA.insert_or_assign 1 99).2.list =
        { n with val := 99 } :: cacheA.list.eraseP (fun m => m.id = 0)) ∧
    (∀ k2 v2, lru.mapFind cacheA.map k2 = none →
      (cacheA.insert k2 v2).2.list =
        (⟨cacheA.nextId, k2, v2⟩ :: cacheA.list).take cacheA.capacity) ∧
    (∀ d : lru Nat Nat, d.evict.list = d.list.dropLast)) :=
  ⟨by decide, by decide,
    C3_order_consistency cacheA 1 0 99 (fun x => x + 1) (by decide) (by decide)⟩

/-- Claim C4 (insert contract): inserting a present key returns `false`
and changes nothing at all; inserting an absent key returns `true`,
creates the Entry at the head, registers the key in the Index (whenever
the capacity is positive) and evicts from the tail while the size
exceeds the capacity, so with capacity 0 the insert still returns
`true` and the size is 0 immediately after. -/
theorem C4_insert_contract (c : lru K V) (k : K) (v : V) (h : c.Inv) :
    ((lru.mapFind c.map k).isSome → c.insert k v = (false, c)) ∧
    (lru.mapFind c.map k = none →
      (c.insert k v).1 = true ∧
      (c.insert k v).2.list = (⟨c.nextId, k, v⟩ :: c.list).take c.capacity ∧
      (0 < c.capacity → (k, c.nextId) ∈ (c.insert k v).2.map) ∧
      (c.capacity = 0 → (c.insert k v).2.size = 0)) := by
  constructor
  · intro hp
    exact lru.insert_eq_present v hp
  · intro habs
    rw [lru.insert_eq_absent v habs]
    refine ⟨rfl, lru.insertNew_list c k v, ?_, ?_⟩
    · intro hcap
      have hinv := lru.insertNew_inv v habs h
      have hmem : (⟨c.nextId, k, v⟩ : Node K V) ∈ (lru.insertNew c k v).list := by
        rw [lru.insertNew_list]
        cases hc : c.capacity with
        | zero => rw [hc] at hcap; exact absurd hcap (by omega)
        | succ m =>
            rw [List.take_succ_cons]
            exact List.mem_cons_self _ _
      exact hinv.1.2.1 ⟨c.nextId, k, v⟩ hmem
    · intro hcap
      show (lru.insertNew c k v).list.length = 0
      rw [lru.insertNew_list, hcap]
      simp

/-- Witness for C4: inserting the absent key 2 in a concrete one-entry
cache, and inserting into a capacity-0 cache (which reports success and
is empty immediately after). -/
theorem C4_witness :
    cacheB.Inv ∧ lru.mapFind cacheB.map 2 = none ∧
    (((lru.mapFind cacheB.map 2).isSome → cacheB.insert 2 20 = (false, cacheB)) ∧
      (lru.mapFind cacheB.map 2 = none →
        (cacheB.insert 2 20).1 = true ∧
        (cacheB.insert 2 20).2.list =
          (⟨cacheB.nextId, 2, 20⟩ :: cacheB.list).take cacheB.capacity ∧
        (0 < cacheB.capacity →
          (2, cacheB.nextId) ∈ (cacheB.insert 2 20).2.map) ∧
        (cacheB.capacity = 0 → (cacheB.insert 2 20).2.size = 0))) ∧
    (((lru.mapFind (lru.ofCapacity 0 : lru Nat Nat).map 1).isSome →
        (lru.ofCapacity 0 : lru Nat Nat).insert 1 1 =
          (false, lru.ofCapacity 0)) ∧
      (lru.mapFind (lru.ofCapacity 0 : lru Nat Nat).map 1 = none →
        ((lru.ofCapacity 0 : lru Nat Nat).insert 1 1).1 = true ∧
        ((lru.ofCapacity 0 : lru Nat Nat).insert 1 1).2.list =
          (⟨(lru.ofCapacity 0 : lru Nat Nat).nextId, 1, 1⟩ ::
            (lru.ofCapacity 0 : lru Nat Nat).list).take
            (lru.ofCapacity 0 : lru Nat Nat).capacity ∧
        (0 < (lru.ofCapacity 0 : lru Nat Nat).capacity →
          (1, (lru.ofCapacity 0 : lru Nat Nat).nextId) ∈
            ((lru.ofCapacity 0 : lru Nat Nat).insert 1 1).2.map) ∧
        ((lru.ofCapacity 0 : lru Nat Nat).capacity = 0 →
          ((lru.ofCapacity 0 : lru Nat Nat).insert 1 1).2.size = 0))) :=
  ⟨by decide, by decide, C4_insert_contract cacheB 2 20 (by decide),
    C4_insert_contract (lru.ofCapacity 0) 1 1 (by decide)⟩

/-- Claim C5 (insert_or_assign on a present key): overwrites the stored
value in place, relocates the Entry to the head, leaves the size
unchanged, returns `false`, and a subsequent `get` yields the new
value. -/
theorem C5_insert_or_assign_present (c : lru K V) (k : K) (i : Nat) (v : V)
    (h : c.Inv) (hm : lru.mapFind c.map k = some i) :
    (c.insert_or_assign k v).1 = false ∧
    (c.insert_or_assign k v).2.size = c.size ∧
    (∃ n, n ∈ c.list ∧ n.id = i ∧ n.key = k ∧
      (c.insert_or_assign k v).2.list =
        { n with val := v } :: c.list.eraseP (fun m => m.id = i)) ∧
    ((c.insert_or_assign k v).2.get k).1 = some v := by
  obtain ⟨n, hs, hn, hid, hkey⟩ := lru.resolve_handle h hm
  have hlist := lru.insert_or_assign_list_present v hm hs
  have hmap : (c.insert_or_assign k v).2.map = c.map := by
    rw [lru.insert_or_assign_eq_present v hm]
    show (lru.promote { c with list := lru.storeAssign c.list i v } i).map = c.map
    rw [lru.promote_map]
  refine ⟨?_, ?_, ⟨n, hn, hid, hkey, hlist⟩, ?_⟩
  · rw [lru.insert_or_assign_eq_present v hm]
  · show (c.insert_or_assign k v).2.list.length = c.list.length
    rw [hlist]
    have hlen := List.length_eraseP_add_one (p := fun m => m.id = i) hn
      (by simpa using hid)
    simp only [List.length_cons]
    omega
  · have hm2 : lru.mapFind (c.insert_or_assign k v).2.map k = some i := by
      rw [hmap]
      exact hm
    have hs2 : lru.storeFind (c.insert_or_assign k v).2.list i =
        some { n with val := v } := by
      rw [hlist]
      unfold lru.storeFind
      rw [List.find?_cons_of_pos _ (by simpa using hid)]
    rw [lru.get_eq_present hm2 hs2]

/-- Witness for C5: scenario C, `insert_or_assign(1, 2)` on a cache of
capacity 2 holding `(1, 1)` returns `false`, keeps size 1 and makes
`get(1)` yield 2. -/
theorem C5_witness :
    cacheC.Inv ∧ lru.mapFind cacheC.map 1 = some 0 ∧ cacheC.size = 1 ∧
    ((cacheC.insert_or_assign 1 2).1 = false ∧
      (cacheC.insert_or_assign 1 2).2.size = cacheC.size ∧
      (∃ n, n ∈ cacheC.list ∧ n.id = 0 ∧ n.key = 1 ∧
        (cacheC.insert_or_assign 1 2).2.list =
          { n with val := 2 } :: cacheC.list.eraseP (fun m => m.id = 0)) ∧
      ((cacheC.insert_or_assign 1 2).2.get 1).1 = some 2) :=
  ⟨by decide, by decide, by decide,
    C5_insert_or_assign_present cacheC 1 0 2 (by decide) (by decide)⟩

/-- Counterexample to claim C8 as stated: `get_copy` is not in the
claimed exclusive list of order-mutating operations, yet calling
`get_copy` on the tail key of a concrete two-entry cache changes the
head-to-tail order of the recency sequence. -/
theorem C8_counterexample :
    ¬ ((cacheA.get_copy 1).2.list.map Node.key = cacheA.list.map Node.key) := by
  decide

/-- Claim C8 as amended: iterating (`for_each`) never mutates the
recency order (it preserves the handle/key sequence exactly, touching
only values), and the operations that alter the recency order are
`find`, `get`, `get_copy`, `contains`, `try_update`, `insert` and
`insert_or_assign`; the remaining operations never reorder surviving
entries: `resize` keeps a prefix of the order, `clear` empties the
cache, and `get_copy` touches exactly as `get` does. -/
theorem C8_amended_mutator_exclusivity (c : lru K V) (k : K)
    (f : K → V → V) (n : Nat) :
    (c.for_each f).list.map (fun m => (m.id, m.key)) =
      c.list.map (fun m => (m.id, m.key)) ∧
    (c.for_each f).map = c.map ∧
    (c.for_each f).capacity = c.capacity ∧
    (c.resize n).list = c.list.take n ∧
    c.clear.list = [] ∧
    (c.get_copy k).2 = (c.get k).2 := by
  refine ⟨?_, rfl, rfl, ?_, rfl, ?_⟩
  · unfold lru.for_each
    simp [List.map_map, Function.comp]
  · show (lru.prune c n).list = c.list.take n
    rw [lru.prune_list]
  · rw [lru.get_copy_snd, lru.get_snd]

/-- Claim C9 (implementation equivalence): for every sequence of calls
to the shared method set (insert, insert_or_assign, find, contains,
try_update, for_each, resize, clear, size, empty, max_size), the two
implementations return the same observable results and end holding the
same entries in the same recency order with the same capacity — the
smaller variant is a strict subset of the superset contract, not a
conflicting design. -/
theorem C9_implementation_equivalence (cap : Nat)
    (ops : List (SharedOp K V)) :
    (lruSmall.runShared (lruSmall.ofCapacity cap) ops).2 =
      (lru.runShared (lru.ofCapacity cap) ops).2 ∧
    (lruSmall.runShared (lruSmall.ofCapacity cap) ops).1.list =
      (lru.runShared (lru.ofCapacity cap) ops).1.list ∧
    (lruSmall.runShared (lruSmall.ofCapacity cap) ops).1.map =
      (lru.runShared (lru.ofCapacity cap) ops).1.map ∧
    (lruSmall.runShared (lruSmall.ofCapacity cap) ops).1.capacity =
      (lru.runShared (lru.ofCapacity cap) ops).1.capacity := by
  have h0 : (lruSmall.ofCapacity cap : lruSmall K V) =
      toSmall (lru.ofCapacity cap) := rfl
  rw [h0, toSmall_runShared]
  exact ⟨rfl, rfl, rfl, rfl⟩
